import Mathlib

/-!
Verification of the YUI3 Accordion item-state reconciliation engine.

The definitions below are a shallow embedding of the widget's core logic
(`Accordion` in the repository source): the ordered item collection, the
`expanded` / `alwaysVisible` flags, the three content-height policies
(`auto`, `fixed`, `stretch`), the pending collapse/expand work sets, and
the reconciliation pass `_processItems`.  DOM measurements (header height,
height of the first body child, container client height) are inputs of the
model; transitions and notifications are recorded as trace events.
-/

namespace YuiAccordion

/-- The `method` field of an item's `contentHeight` attribute:
one of the strings `auto`, `fixed`, `stretch` accepted by the validator. -/
inductive HeightMethod
  | auto
  | fixed
  | stretch
deriving DecidableEq, Repr

/-- The `contentHeight` attribute value: a method plus the height used when
the method is `fixed` (the validator requires `height >= 0` only for `fixed`;
the field is ignored otherwise). -/
structure ContentHeight where
  method : HeightMethod
  height : ℚ := 0
deriving DecidableEq, Repr

/-- One `AccordionItem`, with the attributes and DOM measurements the engine
reads.  `id` models JavaScript reference identity of the item object (items
are used as keys of `_forCollapsing` / `_forExpanding` / `_animations`).
`headerHeight` is `_getNodeOffsetHeight` of the header node;
`bodyFirstChildHeight` is the measured height of the first child of the body
node (`none` when the body has no children, in which case the `auto` branch
of `_getItemContentHeight` yields 0). -/
structure AccordionItem where
  id : Nat
  expanded : Bool
  alwaysVisible : Bool
  contentHeight : ContentHeight
  headerHeight : ℚ := 0
  bodyFirstChildHeight : Option ℚ := none
deriving DecidableEq, Repr

/-- `COLLAPSE_HEIGHT = IEQuirksMode ? 1 : 0`: the pixel height of a fully
collapsed body.  `quirks` stands for `IEQuirksMode`
(`document.compatMode == "BackCompat" && Y.UA.ie > 0`). -/
def collapseHeightConst (quirks : Bool) : ℚ :=
  if quirks then 1 else 0

/-- `_getItemContentHeight` restricted to the non-stretch methods: `auto`
measures the first child of the body (0 when there is none), `fixed` returns
the configured height verbatim.  This is the form of `_getItemContentHeight`
reached from inside `_getHeightPerStretchItem`, where the method is known not
to be `stretch`; the full dispatch including the `stretch` branch is
`getItemContentHeight` below. -/
def getItemContentHeightNS (it : AccordionItem) : ℚ :=
  match it.contentHeight.method with
  | .auto => it.bodyFirstChildHeight.getD 0
  | .fixed => it.contentHeight.height
  | .stretch => 0

/-- One step of the `Y.Array.each` scan in `_getHeightPerStretchItem`:
subtract the header height; if the item is collapsed subtract
`COLLAPSE_HEIGHT` and move on; if it is an expanded stretch item bump the
stretch counter; otherwise subtract the item's own content height. -/
def stretchScanStep (quirks : Bool) (acc : ℚ × Nat) (it : AccordionItem) : ℚ × Nat :=
  let h := acc.1 - it.headerHeight
  if !it.expanded then
    (h - collapseHeightConst quirks, acc.2)
  else if it.contentHeight.method = .stretch then
    (h, acc.2 + 1)
  else
    (h - getItemContentHeightNS it, acc.2)

/-- `_getHeightPerStretchItem`: scan all items starting from the bounding
box's `clientHeight`, then divide by the stretch counter when it is positive,
then clamp a negative result to 0. -/
def getHeightPerStretchItem (quirks : Bool) (clientHeight : ℚ)
    (items : List AccordionItem) : ℚ :=
  let scan := items.foldl (stretchScanStep quirks) (clientHeight, 0)
  let h := if 0 < scan.2 then scan.1 / (scan.2 : ℚ) else scan.1
  if h < 0 then 0 else h

/-- `_getItemContentHeight`, full dispatch: `auto` and `fixed` as in
`getItemContentHeightNS`; `stretch` defers to `_getHeightPerStretchItem`
over the whole container. -/
def getItemContentHeight (quirks : Bool) (clientHeight : ℚ)
    (items : List AccordionItem) (it : AccordionItem) : ℚ :=
  match it.contentHeight.method with
  | .auto => it.bodyFirstChildHeight.getD 0
  | .fixed => it.contentHeight.height
  | .stretch => getHeightPerStretchItem quirks clientHeight items

/-- Modelled from the spec: the specification's closed-form description of
`computeHeightPerStretchItem` — container height minus every header height,
minus the collapsed-height constant per collapsed item, minus the computed
content height of each expanded non-stretch item, divided by the number of
expanded stretch items when positive, clamped at 0.  Compared against the
source-derived `getHeightPerStretchItem`. -/
def heightPerStretchSpec (quirks : Bool) (clientHeight : ℚ)
    (items : List AccordionItem) : ℚ :=
  let headers := (items.map (·.headerHeight)).sum
  let collapsedCount := (items.filter (fun x => !x.expanded)).length
  let content :=
    ((items.filter
        (fun x => x.expanded && !(x.contentHeight.method = .stretch : Bool))).map
      getItemContentHeightNS).sum
  let stretchCount :=
    (items.filter (fun x => x.expanded && (x.contentHeight.method = .stretch : Bool))).length
  let raw := clientHeight - headers - (collapsedCount : ℚ) * collapseHeightConst quirks - content
  let h := if 0 < stretchCount then raw / (stretchCount : ℚ) else raw
  max 0 h

theorem stretchScan_eq (quirks : Bool) (items : List AccordionItem) :
    ∀ h0 : ℚ, ∀ c0 : Nat,
      items.foldl (stretchScanStep quirks) (h0, c0) =
        (h0 - (items.map (·.headerHeight)).sum
            - ((items.filter (fun x => !x.expanded)).length : ℚ) * collapseHeightConst quirks
            - ((items.filter
                  (fun x => x.expanded && !(x.contentHeight.method = .stretch : Bool))).map
                getItemContentHeightNS).sum,
         c0 + (items.filter
                  (fun x => x.expanded && (x.contentHeight.method = .stretch : Bool))).length) := by
  induction items with
  | nil => intro h0 c0; simp
  | cons a l ih =>
    intro h0 c0
    by_cases ha : a.expanded = true
    · by_cases hm : a.contentHeight.method = HeightMethod.stretch
      · simp only [List.foldl_cons, stretchScanStep, ha, hm, List.filter_cons,
          List.map_cons, List.sum_cons, ih]
        simp [ha, hm]
        constructor
        · ring
        · omega
      · simp only [List.foldl_cons, stretchScanStep, ha, List.filter_cons,
          List.map_cons, List.sum_cons, ih]
        simp [ha, hm, getItemContentHeightNS]
        ring
    · simp only [Bool.not_eq_true] at ha
      simp only [List.foldl_cons, stretchScanStep, ha, List.filter_cons,
        List.map_cons, List.sum_cons, ih]
      simp [ha]
      ring

theorem heightPerStretch_eq_spec (quirks : Bool) (clientHeight : ℚ)
    (items : List AccordionItem) :
    getHeightPerStretchItem quirks clientHeight items =
      heightPerStretchSpec quirks clientHeight items := by
  unfold getHeightPerStretchItem heightPerStretchSpec
  rw [stretchScan_eq]
  simp only [Nat.zero_add]
  rcases lt_or_le
      (if 0 < (items.filter
            (fun x => x.expanded && (x.contentHeight.method = .stretch : Bool))).length then
        (clientHeight - (items.map (·.headerHeight)).sum
            - ((items.filter (fun x => !x.expanded)).length : ℚ) * collapseHeightConst quirks
            - ((items.filter
                  (fun x => x.expanded && !(x.contentHeight.method = .stretch : Bool))).map
                getItemContentHeightNS).sum) /
          ((items.filter
              (fun x => x.expanded && (x.contentHeight.method = .stretch : Bool))).length : ℚ)
      else
        clientHeight - (items.map (·.headerHeight)).sum
          - ((items.filter (fun x => !x.expanded)).length : ℚ) * collapseHeightConst quirks
          - ((items.filter
                (fun x => x.expanded && !(x.contentHeight.method = .stretch : Bool))).map
              getItemContentHeightNS).sum) 0 with h | h
  · rw [if_pos h, max_eq_left h.le]
  · rw [if_neg (not_lt.mpr h), max_eq_right h]

/-- C4: `_getHeightPerStretchItem` equals the specification formula — the
container client height minus every header height, minus the collapsed-height
constant per collapsed item, minus the computed content height of each
expanded auto/fixed item, divided by the number of expanded stretch items
when that count is positive (no division when it is zero), negative results
clamped to 0; and on a 300px container with two expanded items (headers 20
each, one stretch body, one fixed(50) body) the per-stretch height is 210. -/
theorem getHeightPerStretchItem_correct :
    (∀ (quirks : Bool) (clientHeight : ℚ) (items : List AccordionItem),
      getHeightPerStretchItem quirks clientHeight items =
        heightPerStretchSpec quirks clientHeight items) ∧
    getHeightPerStretchItem false 300
      [{ id := 0, expanded := true, alwaysVisible := false,
         contentHeight := { method := .stretch }, headerHeight := 20 },
       { id := 1, expanded := true, alwaysVisible := false,
         contentHeight := { method := .fixed, height := 50 }, headerHeight := 20 }] = 210 := by
  refine ⟨heightPerStretch_eq_spec, ?_⟩
  simp only [getHeightPerStretchItem, List.foldl_cons, List.foldl_nil, stretchScanStep,
    getItemContentHeightNS, collapseHeightConst]
  have hne : ¬(HeightMethod.fixed = HeightMethod.stretch) := by
    intro hcon
    exact HeightMethod.noConfusion hcon
  simp only [if_neg hne]
  norm_num

/-! ## The reconciliation engine state -/

/-- Container-level configuration read by the engine.  `quirks` is the
browser rendering mode constant `IEQuirksMode`; `collapseOthersOnExpand`
is the accordion attribute of the same name. -/
structure AccConfig where
  quirks : Bool
  collapseOthersOnExpand : Bool
deriving DecidableEq, Repr

/-- The engine state: the ordered `items` collection, the two pending work
sets `_forCollapsing` (item keys, in insertion order) and `_forExpanding`
(item key with the carried `alwaysVisible` value), the container's measured
client height and the configuration. -/
structure AccState where
  items : List AccordionItem
  forCollapsing : List Nat := []
  forExpanding : List (Nat × Bool) := []
  clientHeight : ℚ := 0
  cfg : AccConfig
deriving DecidableEq, Repr

/-- Trace events: the accordion notifications plus markers for the engine's
transition invocations (`collapseTo i h` = `_processCollapsing(item, h)`
reached through `_collapseItem`, `expandTo i h` = `_expandItem(item, h)`,
`adjustStretch` = `_adjustStretchItems()`, `setItemProps i e av` =
`_setItemProperties(item, e, av)`). -/
inductive Ev
  | beforeItemAdd (i : Nat)
  | itemAdded (i : Nat)
  | beforeItemRemove
  | itemRemoved
  | beforeItemResized (i : Nat)
  | itemResized (i : Nat)
  | beforeItemExpand (i : Nat)
  | beforeItemCollapse (i : Nat)
  | itemExpanded (i : Nat)
  | itemCollapsed (i : Nat)
  | setItemProps (i : Nat) (e av : Bool)
  | collapseTo (i : Nat) (h : ℚ)
  | expandTo (i : Nat) (h : ℚ)
  | adjustStretch
deriving DecidableEq, Repr

/-- Overwrite the `expanded` and `alwaysVisible` flags of an item record
(the state effect of `_setItemProperties(item, e, av)`; the two `item.set`
calls are guarded by inequality checks in the source, which does not change
the resulting flags, and they carry `internalCall: true` so the attribute
after-handlers do not re-enter the engine). -/
def setItemFlags (e av : Bool) (x : AccordionItem) : AccordionItem :=
  { x with expanded := e, alwaysVisible := av }

/-- Apply `f` to the item with identity `i` (reference identity is modelled
by `id`, so every record carrying that identity is rewritten). -/
def updateItem (l : List AccordionItem) (i : Nat)
    (f : AccordionItem → AccordionItem) : List AccordionItem :=
  l.map (fun x => if x.id = i then f x else x)

/-- Look up a registered item by identity. -/
def findItem (s : AccState) (i : Nat) : Option AccordionItem :=
  s.items.find? (fun x => x.id == i)

/-- One flag update `(identity, expanded, alwaysVisible)` applied to the
collection. -/
def applyFlagUpdate (l : List AccordionItem) (u : Nat × Bool × Bool) :
    List AccordionItem :=
  updateItem l u.1 (setItemFlags u.2.1 u.2.2)

/-- A sequence of flag updates applied left to right. -/
def applyFlagUpdates (ups : List (Nat × Bool × Bool))
    (l : List AccordionItem) : List AccordionItem :=
  ups.foldl applyFlagUpdate l

/-- The flag updates issued by `_setItemsProperties`: first every entry of
the pending-collapse set with `(expanded := false, alwaysVisible := false)`,
then every entry of the pending-expand set with `(expanded := true,
alwaysVisible := carried value)`. -/
def flagUpdatesOf (s : AccState) : List (Nat × Bool × Bool) :=
  s.forCollapsing.map (fun i => (i, false, false)) ++
    s.forExpanding.map (fun p => (p.1, true, p.2))

/-- `_setItemsProperties`: run the two loops over the pending sets, updating
the flags of each listed item; the trace records each
`_setItemProperties` invocation. -/
def setItemsProperties (s : AccState) : AccState × List Ev :=
  ({ s with items := applyFlagUpdates (flagUpdatesOf s) s.items },
   (flagUpdatesOf s).map (fun u => Ev.setItemProps u.1 u.2.1 u.2.2))

/-- `this._forCollapsing[item] = {...}`: JavaScript object assignment keyed
by the item — adds the key at the end when absent, otherwise leaves the key
set (and its position) unchanged. -/
def addForCollapsing (l : List Nat) (i : Nat) : List Nat :=
  if i ∈ l then l else l ++ [i]

/-- `this._forExpanding[item] = { item, alwaysVisible }`: assignment keyed by
the item — appends when absent, otherwise overwrites the carried
`alwaysVisible` value in place. -/
def addForExpanding (l : List (Nat × Bool)) (i : Nat) (av : Bool) :
    List (Nat × Bool) :=
  if l.any (fun p => p.1 == i) then
    l.map (fun p => if p.1 = i then (i, av) else p)
  else
    l ++ [(i, av)]

/-- One step of the `_storeItemsForCollapsing` scan: an item that is
expanded, not always visible and not excluded is stored in the
pending-collapse set. -/
def storeCollapseStep (excl : List Nat) (fc : List Nat) (it : AccordionItem) :
    List Nat :=
  if it.expanded && !it.alwaysVisible && !(excl.contains it.id) then
    addForCollapsing fc it.id
  else fc

/-- `_storeItemsForCollapsing(itemsToBeExcluded)`: every item that is
expanded, not always visible and not excluded is stored in the
pending-collapse set. -/
def storeItemsForCollapsing (s : AccState) (excl : List Nat) : AccState :=
  { s with forCollapsing := s.items.foldl (storeCollapseStep excl) s.forCollapsing }

/-- The target height of one entry of the expand loop of `_processItems`:
the height per stretch item (the value `_adjustStretchItems` returned, which
equals `_getHeightPerStretchItem` over the current collection) unless the
item's `contentHeight` method is not `stretch`, in which case the item's own
`_getItemContentHeight` (necessarily the non-stretch branches). -/
def expandHeightOf (quirks : Bool) (clientHeight : ℚ)
    (items : List AccordionItem) (key : Nat) : ℚ :=
  match items.find? (fun x => x.id == key) with
  | some it =>
      if it.contentHeight.method = .stretch then
        getHeightPerStretchItem quirks clientHeight items
      else getItemContentHeightNS it
  | none => getHeightPerStretchItem quirks clientHeight items

/-- `_processItems`: 1. update the flags of everything in the two pending
sets (`_setItemsProperties`); 2. collapse every pending-collapse item
(`_collapseItem`, target height `COLLAPSE_HEIGHT`); 3. adjust the stretch
items over the whole container, obtaining the height per stretch item;
4. expand every pending-expand item, at the per-stretch height for stretch
items and at its own content height otherwise; 5. clear both pending sets. -/
def processItems (s : AccState) : AccState × List Ev :=
  let s1e := setItemsProperties s
  let s1 := s1e.1
  let collapseEvs :=
    s.forCollapsing.map (fun i => Ev.collapseTo i (collapseHeightConst s.cfg.quirks))
  let expandEvs :=
    s.forExpanding.map (fun p =>
      Ev.expandTo p.1 (expandHeightOf s.cfg.quirks s.clientHeight s1.items p.1))
  ({ s1 with forCollapsing := [], forExpanding := [] },
   s1e.2 ++ collapseEvs ++ Ev.adjustStretch :: expandEvs)

/-! ## Public operations and attribute-change handlers -/

/-- The argument of `removeItem`: a number (`Lang.isNumber`), a registered
`Y.AccordionItem` reference, or anything else. -/
inductive RemoveArg
  | byIndex (n : Int)
  | byItem (i : Nat)
  | other
deriving DecidableEq, Repr

/-- The outcome of `removeItem`: a normal return carrying the removed item
(or `none` for the `null` return) and the post state, or a thrown JavaScript
`TypeError` (dereferencing the `undefined` result of an out-of-range
`splice`), carrying the state at the moment of the throw.  Each constructor
also carries the notifications fired up to that point. -/
inductive RemoveOutcome
  | ret (removed : Option AccordionItem) (s : AccState) (tr : List Ev)
  | errThrown (s : AccState) (tr : List Ev)
deriving DecidableEq, Repr

/-- `getItemIndex`: index of a registered item, `-1` when absent. -/
def getItemIndex (s : AccState) (i : Nat) : Int :=
  match s.items.findIdx? (fun x => x.id == i) with
  | some n => (n : Int)
  | none => -1

/-- `removeItem(p_item)`: resolve the argument to an index (a number is used
verbatim, an item is looked up, anything else returns `null`); when the index
is non-negative, fire `beforeItemRemove` (the source discards the return
value of `fire`, so `cancelRemove` — whether some subscriber returned
`false` — has no effect), splice the collection at that index, detach the
removed item's handles, remove its bounding box from the document, re-adjust
the stretch items and fire `itemRemoved`.  When the non-negative index is out
of range the splice removes nothing and returns `undefined`, and the
subsequent `item.get("boundingBox")` throws. -/
def removeItem (s : AccState) (arg : RemoveArg) (cancelRemove : Bool) :
    RemoveOutcome :=
  match arg with
  | .other => .ret none s []
  | _ =>
    let itemIndex : Int :=
      match arg with
      | .byIndex n => n
      | .byItem i => getItemIndex s i
      | .other => -1
    let _resIgnored := cancelRemove
    if 0 ≤ itemIndex then
      match s.items.get? itemIndex.toNat with
      | some it =>
          (.ret (some it)
            { s with items := s.items.eraseIdx itemIndex.toNat }
            [Ev.beforeItemRemove, Ev.adjustStretch, Ev.itemRemoved])
      | none => .errThrown s [Ev.beforeItemRemove]
    else
      .ret none s []

/-- `_onItemChosen(item, srcIconAlwaysVisible, srcIconClose)`: close icon
removes the item; always-visible icon on an expanded item toggles the pin in
place (no reconciliation pass); otherwise the item is queued for collapsing
or expanding (sweeping the other expanded, unpinned items into the collapse
set when `collapseOthersOnExpand` is set) and `_processItems` runs. -/
def onItemChosen (s : AccState) (i : Nat)
    (srcIconAlwaysVisible srcIconClose : Bool) : AccState × List Ev :=
  match findItem s i with
  | none => (s, [])
  | some item =>
    let alwaysVisible := item.alwaysVisible
    let expanded := item.expanded
    if srcIconClose then
      match removeItem s (.byItem i) false with
      | .ret _ s1 tr => (s1, tr)
      | .errThrown s1 tr => (s1, tr)
    else if srcIconAlwaysVisible then
      if expanded then
        let av := !alwaysVisible
        let e := if av then true else expanded
        ({ s with items := updateItem s.items i (setItemFlags e av) },
         [Ev.setItemProps i e av])
      else
        let s1 := { s with forExpanding := addForExpanding s.forExpanding i true }
        let s2 :=
          if s.cfg.collapseOthersOnExpand then storeItemsForCollapsing s1 [i] else s1
        processItems s2
    else
      if expanded then
        processItems { s with forCollapsing := addForCollapsing s.forCollapsing i }
      else
        let s1 :=
          { s with forExpanding := addForExpanding s.forExpanding i alwaysVisible }
        let s2 :=
          if s.cfg.collapseOthersOnExpand then storeItemsForCollapsing s1 [i] else s1
        processItems s2

/-- An external (non-`internalCall`) `item.set("expanded", v)`: the raw
attribute write lands first, then the `_afterItemExpand` handler queues the
item for expanding (carrying its current `alwaysVisible`) — sweeping the
other expanded, unpinned items when `collapseOthersOnExpand` is set, with no
exclusions — or for collapsing, and runs `_processItems`. -/
def setExpandedExternal (s : AccState) (i : Nat) (v : Bool) :
    AccState × List Ev :=
  match findItem s i with
  | none => (s, [])
  | some item0 =>
    let s0 := { s with items := updateItem s.items i (fun x => { x with expanded := v }) }
    if v then
      let s1 :=
        { s0 with forExpanding := addForExpanding s0.forExpanding i item0.alwaysVisible }
      let s2 := if s.cfg.collapseOthersOnExpand then storeItemsForCollapsing s1 [] else s1
      processItems s2
    else
      processItems { s0 with forCollapsing := addForCollapsing s0.forCollapsing i }

/-- An external `item.set("alwaysVisible", v)`: the raw attribute write lands
first, then `_afterItemAlwaysVisible` runs.  `v = true` on an expanded item
applies the flags and UI directly and returns (no pass); `v = true` on a
collapsed item queues it for expanding with the pin carried and sweeps every
other expanded, unpinned item — unconditionally, without consulting
`collapseOthersOnExpand` — then runs `_processItems`; `v = false` only
updates the UI (expanded) or does nothing (collapsed). -/
def setAlwaysVisibleExternal (s : AccState) (i : Nat) (v : Bool) :
    AccState × List Ev :=
  match findItem s i with
  | none => (s, [])
  | some item0 =>
    let s0 :=
      { s with items := updateItem s.items i (fun x => { x with alwaysVisible := v }) }
    if v then
      if item0.expanded then
        ({ s0 with items := updateItem s0.items i (setItemFlags true true) },
         [Ev.setItemProps i true true])
      else
        let s1 := { s0 with forExpanding := addForExpanding s0.forExpanding i true }
        processItems (storeItemsForCollapsing s1 [])
    else
      (s0, [])

/-- `addItem(item)` (no `parentItem`, item markup not already in the
document: the collection push path).  Fires the cancellable `beforeItemAdd`
(`cancelAdd` is true when some subscriber returned `false`; the operation
aborts returning `false`).  Otherwise the item is appended, queued for
expanding when `expanded || alwaysVisible` holds (or for collapsing
otherwise), `_processItems` runs, and `itemAdded` fires.  Returns the state,
the boolean result and the trace. -/
def addItem (s : AccState) (it : AccordionItem) (cancelAdd : Bool) :
    AccState × Bool × List Ev :=
  if cancelAdd then (s, false, [Ev.beforeItemAdd it.id])
  else
    let s1 := { s with items := s.items ++ [it] }
    let expanded := it.expanded || it.alwaysVisible
    let s2 :=
      if expanded then
        { s1 with forExpanding := addForExpanding s1.forExpanding it.id it.alwaysVisible }
      else
        { s1 with forCollapsing := addForCollapsing s1.forCollapsing it.id }
    let s3e := processItems s2
    (s3e.1, true, Ev.beforeItemAdd it.id :: s3e.2 ++ [Ev.itemAdded it.id])

/-- The notifications fired by `_processCollapsing(item, height,
forceSkipAnimation)`, completion included: `beforeItemResized` always;
`beforeItemCollapse` when `collapsing` (that is, `height === COLLAPSE_HEIGHT`);
then, in the animated path (`!forceSkipAnimation && useAnimation`), the
completion callback fires `itemResized` and — when `collapsing` —
`itemCollapsed`; in the synchronous path the height is set directly,
`itemResized` fires, and `itemCollapsed` fires when `height === 0`
(the literal 0, not `COLLAPSE_HEIGHT`). -/
def processCollapsingEvents (quirks useAnimation forceSkipAnimation : Bool)
    (i : Nat) (height : ℚ) : List Ev :=
  let collapsing := height = collapseHeightConst quirks
  let pre :=
    Ev.beforeItemResized i ::
      (if collapsing then [Ev.beforeItemCollapse i] else [])
  if !forceSkipAnimation && useAnimation then
    pre ++ Ev.itemResized i :: (if collapsing then [Ev.itemCollapsed i] else [])
  else
    pre ++ Ev.itemResized i :: (if height = 0 then [Ev.itemCollapsed i] else [])

/-! ## The drag-and-drop reorder splice -/

/-- JavaScript `array.splice(idx, 0, x)`: insert `x` before position `idx`
(appending when `idx` is at or past the end). -/
def spliceInsert (l : List α) (idx : Nat) (x : α) : List α :=
  l.take idx ++ x :: l.drop idx

/-- JavaScript `array.splice(idx, 1)`: delete the element at position `idx`
(no effect when `idx` is past the end). -/
def spliceRemove (l : List α) (idx : Nat) : List α :=
  l.take idx ++ l.drop (idx + 1)

/-- The collection mutation of the `drag:drophit` handler, on the ordered
`items` array: `mineIndex` is the dragged item's index, `targetIndex` the
drop target's.  Dropping on itself does nothing; moving up (`targetIndex <
mineIndex`) removes the dragged item then inserts it before the target;
moving down inserts a copy after the target first (`splice(targetIndex + 1,
0, item)`) and then removes the original (`splice(mineIndex, 1)`). -/
def ddReorder (l : List α) (mineIndex targetIndex : Nat) : List α :=
  if targetIndex = mineIndex then l
  else
    match l.get? mineIndex with
    | none => l
    | some item =>
      if targetIndex < mineIndex then
        spliceInsert (spliceRemove l mineIndex) targetIndex item
      else
        spliceRemove (spliceInsert l (targetIndex + 1) item) mineIndex

/-! ## The public mutations, bundled -/

/-- A public mutation of the accordion: `addItem`, a user choice of an item
(header, always-visible icon or close icon), an external set of an item's
`expanded` or `alwaysVisible` attribute, `removeItem`, or a bare
reconciliation pass. -/
inductive Op
  | add (it : AccordionItem) (cancelAdd : Bool)
  | choose (i : Nat) (srcIconAlwaysVisible srcIconClose : Bool)
  | setExpanded (i : Nat) (v : Bool)
  | setAlwaysVisible (i : Nat) (v : Bool)
  | remove (arg : RemoveArg) (cancelRemove : Bool)
  | runPending

/-- The state reached by one public mutation (for a thrown `removeItem`,
the state at the moment of the throw). -/
def applyOp (s : AccState) (op : Op) : AccState :=
  match op with
  | .add it cancelAdd => (addItem s it cancelAdd).1
  | .choose i srcAV srcClose => (onItemChosen s i srcAV srcClose).1
  | .setExpanded i v => (setExpandedExternal s i v).1
  | .setAlwaysVisible i v => (setAlwaysVisibleExternal s i v).1
  | .remove arg cancel =>
      match removeItem s arg cancel with
      | .ret _ s1 _ => s1
      | .errThrown s1 _ => s1
  | .runPending => (processItems s).1

/-! ## The pin-implies-expanded invariant -/

/-- A single item's flags are consistent: pinned implies expanded. -/
def FlagsOK (it : AccordionItem) : Prop :=
  it.alwaysVisible = true → it.expanded = true

instance (it : AccordionItem) : Decidable (FlagsOK it) := by
  unfold FlagsOK
  infer_instance

/-- The accordion-wide invariant: every registered item is pinned only if
expanded. -/
def AVInv (s : AccState) : Prop :=
  ∀ it ∈ s.items, FlagsOK it

instance (s : AccState) : Decidable (AVInv s) := by
  unfold AVInv
  exact List.decidableBAll _ s.items

theorem setItemFlags_id (e av : Bool) (x : AccordionItem) :
    (setItemFlags e av x).id = x.id := rfl

theorem applyFlagUpdate_def (l : List AccordionItem) (u : Nat × Bool × Bool) :
    applyFlagUpdate l u = updateItem l u.1 (setItemFlags u.2.1 u.2.2) := rfl

theorem applyFlagUpdates_cons (u : Nat × Bool × Bool)
    (ups : List (Nat × Bool × Bool)) (l : List AccordionItem) :
    applyFlagUpdates (u :: ups) l = applyFlagUpdates ups (applyFlagUpdate l u) := rfl

theorem applyFlagUpdates_nil (l : List AccordionItem) :
    applyFlagUpdates [] l = l := rfl

theorem mem_updateItem {l : List AccordionItem} {i : Nat}
    {f : AccordionItem → AccordionItem} {y : AccordionItem}
    (hy : y ∈ updateItem l i f) :
    ∃ x ∈ l, y = if x.id = i then f x else x := by
  have hy' : y ∈ l.map (fun x => if x.id = i then f x else x) := hy
  rcases List.mem_map.mp hy' with ⟨x, hxl, hgx⟩
  exact ⟨x, hxl, hgx.symm⟩

theorem updateItem_id_q {Q : AccordionItem → Prop} {l : List AccordionItem}
    {i : Nat} {f : AccordionItem → AccordionItem}
    (hq : ∀ x, Q (f x)) (_hid : ∀ x, (f x).id = x.id) :
    ∀ y ∈ updateItem l i f, y.id = i → Q y := by
  intro y hy hyi
  rcases mem_updateItem hy with ⟨x, _, hx⟩
  by_cases hxi : x.id = i
  · rw [hx, if_pos hxi]
    exact hq x
  · exfalso
    rw [hx, if_neg hxi] at hyi
    exact hxi hyi

theorem updateItem_id_pres {Q : AccordionItem → Prop} {l : List AccordionItem}
    {i j : Nat} {f : AccordionItem → AccordionItem}
    (hid : ∀ x, (f x).id = x.id)
    (hfq : i = j → ∀ x, Q (f x))
    (hl : ∀ y ∈ l, y.id = j → Q y) :
    ∀ y ∈ updateItem l i f, y.id = j → Q y := by
  intro y hy hyj
  rcases mem_updateItem hy with ⟨x, hxl, hx⟩
  by_cases hxi : x.id = i
  · rw [hx, if_pos hxi]
    rw [hx, if_pos hxi, hid] at hyj
    exact hfq (by rw [← hxi, hyj]) x
  · rw [hx, if_neg hxi]
    rw [hx, if_neg hxi] at hyj
    exact hl x hxl hyj

theorem updateItem_id_out {l : List AccordionItem} {i j : Nat}
    {f : AccordionItem → AccordionItem}
    (hid : ∀ x, (f x).id = x.id) (hij : i ≠ j) :
    ∀ y ∈ updateItem l i f, y.id = j → y ∈ l := by
  intro y hy hyj
  rcases mem_updateItem hy with ⟨x, hxl, hx⟩
  by_cases hxi : x.id = i
  · exfalso
    rw [hx, if_pos hxi, hid] at hyj
    exact hij (by rw [← hxi, hyj])
  · rw [hx, if_neg hxi]
    exact hxl

theorem applyFlagUpdates_id_q {Q : AccordionItem → Prop}
    (ups : List (Nat × Bool × Bool)) (l : List AccordionItem) (j : Nat)
    (hq : ∀ u ∈ ups, u.1 = j → ∀ x, Q (setItemFlags u.2.1 u.2.2 x))
    (hbase : j ∈ ups.map Prod.fst ∨ ∀ y ∈ l, y.id = j → Q y) :
    ∀ y ∈ applyFlagUpdates ups l, y.id = j → Q y := by
  induction ups generalizing l with
  | nil =>
    rcases hbase with h | h
    · simp at h
    · rw [applyFlagUpdates_nil]
      exact h
  | cons u rest ih =>
    have hq' : ∀ v ∈ rest, v.1 = j → ∀ x, Q (setItemFlags v.2.1 v.2.2 x) :=
      fun v hv => hq v (List.mem_cons_of_mem u hv)
    have hnext : j ∈ rest.map Prod.fst ∨
        ∀ y ∈ applyFlagUpdate l u, y.id = j → Q y := by
      rcases hbase with h | h
      · rcases List.mem_map.mp h with ⟨v, hv, hvj⟩
        rcases List.mem_cons.mp hv with h1 | h1
        · right
          rw [applyFlagUpdate_def]
          rw [h1] at hvj
          intro y hy hyj
          exact updateItem_id_q (hq u (List.mem_cons_self u rest) hvj)
            (setItemFlags_id _ _) y hy (by rw [hyj, hvj])
        · left
          exact List.mem_map.mpr ⟨v, h1, hvj⟩
      · right
        rw [applyFlagUpdate_def]
        exact updateItem_id_pres (setItemFlags_id _ _)
          (fun hid => hq u (List.mem_cons_self u rest) hid) h
    rw [applyFlagUpdates_cons]
    exact ih (applyFlagUpdate l u) hq' hnext

theorem applyFlagUpdates_untouched
    (ups : List (Nat × Bool × Bool)) (l : List AccordionItem) (j : Nat)
    (hnj : j ∉ ups.map Prod.fst) :
    ∀ y ∈ applyFlagUpdates ups l, y.id = j → y ∈ l := by
  induction ups generalizing l with
  | nil =>
    rw [applyFlagUpdates_nil]
    exact fun y hy _ => hy
  | cons u rest ih =>
    have hu : u.1 ≠ j := by
      intro hcon
      exact hnj (List.mem_map.mpr ⟨u, List.mem_cons_self u rest, hcon⟩)
    have hrest : j ∉ rest.map Prod.fst := by
      intro hcon
      rcases List.mem_map.mp hcon with ⟨v, hv, hvj⟩
      exact hnj (List.mem_map.mpr ⟨v, List.mem_cons_of_mem u hv, hvj⟩)
    intro y hy hyj
    rw [applyFlagUpdates_cons] at hy
    have hmem : y ∈ applyFlagUpdate l u := ih (applyFlagUpdate l u) hrest y hy hyj
    rw [applyFlagUpdate_def] at hmem
    exact updateItem_id_out (setItemFlags_id _ _) hu y hmem hyj

theorem flagUpdatesOf_ok (s : AccState) :
    ∀ u ∈ flagUpdatesOf s, ∀ x, FlagsOK (setItemFlags u.2.1 u.2.2 x) := by
  intro u hu x
  rcases List.mem_append.mp hu with h | h
  · rcases List.mem_map.mp h with ⟨i, _, rfl⟩
    intro hav
    simp [setItemFlags] at hav
  · rcases List.mem_map.mp h with ⟨p, _, rfl⟩
    intro _
    rfl

/-- The items of `(processItems s).1` are the flag-updated items. -/
theorem processItems_items (s : AccState) :
    (processItems s).1.items = applyFlagUpdates (flagUpdatesOf s) s.items := rfl

/-- The pending sets are cleared by a pass. -/
theorem processItems_pending (s : AccState) :
    (processItems s).1.forCollapsing = [] ∧ (processItems s).1.forExpanding = [] :=
  ⟨rfl, rfl⟩

/-- The trace of a pass: batched flag updates, then the collapse
transitions, then the stretch adjustment, then the expand transitions with
heights computed over the flag-updated collection. -/
theorem processItems_trace (s : AccState) :
    (processItems s).2 =
      (flagUpdatesOf s).map (fun u => Ev.setItemProps u.1 u.2.1 u.2.2) ++
        s.forCollapsing.map
          (fun i => Ev.collapseTo i (collapseHeightConst s.cfg.quirks)) ++
        Ev.adjustStretch ::
          s.forExpanding.map (fun p =>
            Ev.expandTo p.1
              (expandHeightOf s.cfg.quirks s.clientHeight
                (applyFlagUpdates (flagUpdatesOf s) s.items) p.1)) := rfl

/-- A reconciliation pass restores the invariant for every item that either
already satisfied it or is covered by the pending sets. -/
theorem avInv_processItems {s : AccState}
    (h : ∀ y ∈ s.items, FlagsOK y ∨ y.id ∈ (flagUpdatesOf s).map Prod.fst) :
    AVInv (processItems s).1 := by
  intro y hy
  rw [processItems_items] at hy
  by_cases hj : y.id ∈ (flagUpdatesOf s).map Prod.fst
  · exact applyFlagUpdates_id_q (flagUpdatesOf s) s.items y.id
      (fun u _ _ x => flagUpdatesOf_ok s u (by assumption) x) (Or.inl hj) y hy rfl
  · have hmem : y ∈ s.items :=
      applyFlagUpdates_untouched (flagUpdatesOf s) s.items y.id hj y hy rfl
    rcases h y hmem with hok | hin
    · exact hok
    · exact absurd hin hj

theorem flagsOK_setItemFlags {e av : Bool} (h : av = true → e = true)
    (x : AccordionItem) : FlagsOK (setItemFlags e av x) := by
  intro hav
  exact h hav

theorem avInv_updateItem {l : List AccordionItem} {i : Nat}
    {f : AccordionItem → AccordionItem}
    (hf : ∀ x, FlagsOK (f x)) (hl : ∀ y ∈ l, FlagsOK y) :
    ∀ y ∈ updateItem l i f, FlagsOK y := by
  intro y hy
  rcases mem_updateItem hy with ⟨x, hxl, hx⟩
  by_cases hxi : x.id = i
  · rw [hx, if_pos hxi]
    exact hf x
  · rw [hx, if_neg hxi]
    exact hl x hxl

theorem mem_updateItem_of_ne {l : List AccordionItem} {i : Nat}
    {f : AccordionItem → AccordionItem} {y : AccordionItem}
    (hy : y ∈ updateItem l i f) (hid : ∀ x, (f x).id = x.id)
    (hne : y.id ≠ i) : y ∈ l := by
  rcases mem_updateItem hy with ⟨x, hxl, hx⟩
  by_cases hxi : x.id = i
  · exfalso
    rw [hx, if_pos hxi, hid] at hne
    exact hne hxi
  · rw [hx, if_neg hxi]
    exact hxl

theorem flagUpdates_fst (s : AccState) :
    (flagUpdatesOf s).map Prod.fst =
      s.forCollapsing ++ s.forExpanding.map Prod.fst := by
  simp [flagUpdatesOf, Function.comp_def]

theorem mem_addForCollapsing_self (l : List Nat) (i : Nat) :
    i ∈ addForCollapsing l i := by
  unfold addForCollapsing
  split
  · assumption
  · simp

theorem mem_addForCollapsing_of_mem {l : List Nat} {j : Nat} (i : Nat)
    (h : j ∈ l) : j ∈ addForCollapsing l i := by
  unfold addForCollapsing
  split
  · exact h
  · exact List.mem_append_left _ h

theorem mem_addForExpanding_self (l : List (Nat × Bool)) (i : Nat) (av : Bool) :
    i ∈ (addForExpanding l i av).map Prod.fst := by
  unfold addForExpanding
  split
  · rename_i h
    rcases List.any_eq_true.mp h with ⟨p, hp, hpi⟩
    refine List.mem_map.mpr ⟨(i, av), List.mem_map.mpr ⟨p, hp, ?_⟩, rfl⟩
    rw [if_pos (by simpa using hpi)]
  · simp

theorem storeItems_items (s : AccState) (excl : List Nat) :
    (storeItemsForCollapsing s excl).items = s.items := rfl

/-- Any outcome of `removeItem` leaves the item collection a sub-collection
of the original (an element is removed or nothing changes). -/
theorem removeItem_items_subset (s : AccState) (arg : RemoveArg) (c : Bool) :
    ∀ y,
      (∀ s1 r tr, removeItem s arg c = .ret r s1 tr → y ∈ s1.items → y ∈ s.items) ∧
      (∀ s1 tr, removeItem s arg c = .errThrown s1 tr → y ∈ s1.items → y ∈ s.items) := by
  intro y
  constructor
  · intro s1 r tr hrem hy
    unfold removeItem at hrem
    rcases arg with n | i | _
    · simp only at hrem
      split at hrem
      · split at hrem
        · rcases hrem with ⟨⟩
          exact List.mem_of_mem_eraseIdx hy
        · rcases hrem with ⟨⟩
      · rcases hrem with ⟨⟩
        exact hy
    · simp only at hrem
      split at hrem
      · split at hrem
        · rcases hrem with ⟨⟩
          exact List.mem_of_mem_eraseIdx hy
        · rcases hrem with ⟨⟩
      · rcases hrem with ⟨⟩
        exact hy
    · rcases hrem with ⟨⟩
      exact hy
  · intro s1 tr hrem hy
    unfold removeItem at hrem
    rcases arg with n | i | _
    · simp only at hrem
      split at hrem
      · split at hrem
        · rcases hrem with ⟨⟩
        · rcases hrem with ⟨⟩
          exact hy
      · rcases hrem with ⟨⟩
    · simp only at hrem
      split at hrem
      · split at hrem
        · rcases hrem with ⟨⟩
        · rcases hrem with ⟨⟩
          exact hy
      · rcases hrem with ⟨⟩
    · rcases hrem with ⟨⟩

theorem avInv_addItem (s : AccState) (it : AccordionItem) (c : Bool)
    (hinv : AVInv s) : AVInv (addItem s it c).1 := by
  unfold addItem
  by_cases hc : c = true
  · rw [if_pos hc]
    exact hinv
  · rw [if_neg hc]
    simp only
    by_cases he : (it.expanded || it.alwaysVisible) = true
    · rw [if_pos he]
      refine avInv_processItems ?_
      intro y hy
      rcases List.mem_append.mp hy with hys | hyit
      · exact Or.inl (hinv y hys)
      · right
        rcases List.mem_singleton.mp hyit with rfl
        rw [flagUpdates_fst]
        exact List.mem_append_right _ (mem_addForExpanding_self _ _ _)
    · rw [if_neg he]
      refine avInv_processItems ?_
      intro y hy
      rcases List.mem_append.mp hy with hys | hyit
      · exact Or.inl (hinv y hys)
      · right
        rcases List.mem_singleton.mp hyit with rfl
        rw [flagUpdates_fst]
        exact List.mem_append_left _ (mem_addForCollapsing_self _ _)

theorem avInv_removeOutcome (s : AccState) (arg : RemoveArg) (c : Bool)
    (hinv : AVInv s) : AVInv (applyOp s (.remove arg c)) := by
  show AVInv (match removeItem s arg c with
    | .ret _ s1 _ => s1
    | .errThrown s1 _ => s1)
  cases hrem : removeItem s arg c with
  | ret r s1 tr =>
    intro y hy
    exact hinv y (((removeItem_items_subset s arg c) y).1 s1 r tr hrem hy)
  | errThrown s1 tr =>
    intro y hy
    exact hinv y (((removeItem_items_subset s arg c) y).2 s1 tr hrem hy)

theorem avInv_onItemChosen (s : AccState) (i : Nat) (srcAV srcClose : Bool)
    (hinv : AVInv s) : AVInv (onItemChosen s i srcAV srcClose).1 := by
  unfold onItemChosen
  cases hfind : findItem s i with
  | none => exact hinv
  | some item =>
    simp only
    by_cases hcl : srcClose = true
    · rw [if_pos hcl]
      have := avInv_removeOutcome s (.byItem i) false hinv
      revert this
      show AVInv (match removeItem s (.byItem i) false with
        | .ret _ s1 _ => s1
        | .errThrown s1 _ => s1) → _
      cases removeItem s (.byItem i) false with
      | ret r s1 tr => exact fun h => h
      | errThrown s1 tr => exact fun h => h
    · rw [if_neg hcl]
      by_cases hav : srcAV = true
      · rw [if_pos hav]
        by_cases hexp : item.expanded = true
        · rw [if_pos hexp]
          intro y hy
          refine avInv_updateItem (flagsOK_setItemFlags ?_) hinv y hy
          intro h
          rw [if_pos h]
        · rw [if_neg hexp]
          by_cases hco : s.cfg.collapseOthersOnExpand = true
          · rw [if_pos hco]
            exact avInv_processItems (fun y hy => Or.inl (hinv y hy))
          · rw [if_neg hco]
            exact avInv_processItems (fun y hy => Or.inl (hinv y hy))
      · rw [if_neg hav]
        by_cases hexp : item.expanded = true
        · rw [if_pos hexp]
          exact avInv_processItems (fun y hy => Or.inl (hinv y hy))
        · rw [if_neg hexp]
          by_cases hco : s.cfg.collapseOthersOnExpand = true
          · rw [if_pos hco]
            exact avInv_processItems (fun y hy => Or.inl (hinv y hy))
          · rw [if_neg hco]
            exact avInv_processItems (fun y hy => Or.inl (hinv y hy))

theorem avInv_setExpanded (s : AccState) (i : Nat) (v : Bool)
    (hinv : AVInv s) : AVInv (setExpandedExternal s i v).1 := by
  unfold setExpandedExternal
  cases hfind : findItem s i with
  | none => exact hinv
  | some item0 =>
    simp only
    by_cases hv : v = true
    · rw [if_pos hv]
      by_cases hco : s.cfg.collapseOthersOnExpand = true
      · rw [if_pos hco]
        refine avInv_processItems (fun y hy => Or.inl ?_)
        rw [storeItems_items] at hy
        exact avInv_updateItem (fun x _ => hv) hinv y hy
      · rw [if_neg hco]
        refine avInv_processItems (fun y hy => Or.inl ?_)
        exact avInv_updateItem (fun x _ => hv) hinv y hy
    · rw [if_neg hv]
      refine avInv_processItems ?_
      intro y hy
      rcases mem_updateItem hy with ⟨x, hxl, hx⟩
      by_cases hxi : x.id = i
      · right
        rw [flagUpdates_fst]
        refine List.mem_append_left _ ?_
        have hyid : y.id = i := by
          rw [hx, if_pos hxi]
          exact hxi
        rw [hyid]
        exact mem_addForCollapsing_self _ _
      · left
        rw [hx, if_neg hxi]
        exact hinv x hxl

theorem avInv_setAlwaysVisible (s : AccState) (i : Nat) (v : Bool)
    (hinv : AVInv s) : AVInv (setAlwaysVisibleExternal s i v).1 := by
  unfold setAlwaysVisibleExternal
  cases hfind : findItem s i with
  | none => exact hinv
  | some item0 =>
    simp only
    by_cases hv : v = true
    · rw [if_pos hv]
      by_cases hexp : item0.expanded = true
      · rw [if_pos hexp]
        intro y hy
        rcases mem_updateItem hy with ⟨x, hxl, hx⟩
        by_cases hxi : x.id = i
        · rw [hx, if_pos hxi]
          exact flagsOK_setItemFlags (fun _ => rfl) x
        · rw [hx, if_neg hxi]
          have hxs : x ∈ s.items :=
            mem_updateItem_of_ne hxl (fun _ => rfl) hxi
          exact hinv x hxs
      · rw [if_neg hexp]
        refine avInv_processItems ?_
        intro y hy
        rw [storeItems_items] at hy
        rcases mem_updateItem hy with ⟨x, hxl, hx⟩
        by_cases hxi : x.id = i
        · right
          rw [flagUpdates_fst]
          refine List.mem_append_right _ ?_
          have hyid : y.id = i := by
            rw [hx, if_pos hxi]
            exact hxi
          rw [hyid]
          exact mem_addForExpanding_self _ _ _
        · left
          rw [hx, if_neg hxi]
          exact hinv x hxl
    · rw [if_neg hv]
      intro y hy
      rcases mem_updateItem hy with ⟨x, hxl, hx⟩
      by_cases hxi : x.id = i
      · rw [hx, if_pos hxi]
        intro hcon
        have : v = true := hcon
        exact absurd this hv
      · rw [hx, if_neg hxi]
        exact hinv x hxl

/-- C1: after every public mutation — `addItem`, a user choice of an item,
an external set of `expanded` or `alwaysVisible`, `removeItem`, a
reconciliation pass — `alwaysVisible = true` implies `expanded = true` for
every registered item; and an external `expanded := false` on an item (the
pending sets being empty between passes) also forces that item's
`alwaysVisible` flag to `false`. -/
theorem alwaysVisible_implies_expanded :
    (∀ (s : AccState) (op : Op), AVInv s → AVInv (applyOp s op)) ∧
    (∀ (s : AccState) (i : Nat),
      s.forCollapsing = [] → s.forExpanding = [] →
      ∀ y ∈ (setExpandedExternal s i false).1.items, y.id = i →
        y.alwaysVisible = false ∧ y.expanded = false) := by
  constructor
  · intro s op hinv
    cases op with
    | add it cancelAdd => exact avInv_addItem s it cancelAdd hinv
    | choose i srcAV srcClose => exact avInv_onItemChosen s i srcAV srcClose hinv
    | setExpanded i v => exact avInv_setExpanded s i v hinv
    | setAlwaysVisible i v => exact avInv_setAlwaysVisible s i v hinv
    | remove arg c => exact avInv_removeOutcome s arg c hinv
    | runPending => exact avInv_processItems (fun y hy => Or.inl (hinv y hy))
  · intro s i hfc hfe
    unfold setExpandedExternal
    cases hfind : findItem s i with
    | none =>
      intro y hy hyi
      exfalso
      have hnone : ∀ x ∈ s.items, ¬((fun x => x.id == i) x = true) :=
        fun x hx => by simpa using List.find?_eq_none.mp hfind x hx
      have hne : ¬((y.id == i) = true) := hnone y hy
      exact hne (by simpa using hyi)
    | some item0 =>
      simp only [if_neg (Bool.false_ne_true)]
      intro y hy hyi
      have hups : flagUpdatesOf
          { { s with items := updateItem s.items i (fun x => { x with expanded := false }) } with
            forCollapsing :=
              addForCollapsing
                ({ s with items := updateItem s.items i (fun x => { x with expanded := false }) }).forCollapsing i } =
          [(i, false, false)] := by
        simp [flagUpdatesOf, hfc, hfe, addForCollapsing]
      have hq : ∀ u ∈ [((i : Nat), false, false)], u.1 = i →
          ∀ x, (setItemFlags u.2.1 u.2.2 x).alwaysVisible = false ∧
            (setItemFlags u.2.1 u.2.2 x).expanded = false := by
        intro u hu _ x
        rcases List.mem_singleton.mp hu with rfl
        exact ⟨rfl, rfl⟩
      have hy' := hy
      rw [processItems_items, hups] at hy'
      exact applyFlagUpdates_id_q
        (Q := fun y => y.alwaysVisible = false ∧ y.expanded = false)
        [(i, false, false)] _ i hq (Or.inl (by simp)) y hy' hyi

/-- A one-item accordion with the item pinned and expanded. -/
def pinnedState : AccState :=
  { items := [{ id := 0, expanded := true, alwaysVisible := true,
                contentHeight := { method := .auto } }],
    cfg := { quirks := false, collapseOthersOnExpand := true } }

/-- Witness for C1: on a concrete pinned, expanded item, externally setting
`expanded := false` keeps the invariant and clears the pin. -/
theorem alwaysVisible_implies_expanded_witness :
    AVInv (applyOp pinnedState (Op.setExpanded 0 false)) ∧
    (∀ y ∈ (setExpandedExternal pinnedState 0 false).1.items, y.id = 0 →
      y.alwaysVisible = false ∧ y.expanded = false) :=
  ⟨alwaysVisible_implies_expanded.1 pinnedState (Op.setExpanded 0 false)
      (by intro it hit; rcases List.mem_singleton.mp hit with rfl; exact fun _ => rfl),
   alwaysVisible_implies_expanded.2 pinnedState 0 rfl rfl⟩

/-! ## Cancellability of the before-notifications (C2) -/

/-- A one-item accordion used to exercise `removeItem` under a cancelling
`beforeItemRemove` subscriber. -/
def c2State : AccState :=
  { items := [{ id := 7, expanded := true, alwaysVisible := false,
                contentHeight := { method := .auto } }],
    cfg := { quirks := false, collapseOthersOnExpand := true } }

/-- C2 counterexample: a subscriber returning `false` from
`beforeItemRemove` (`cancelRemove = true`) does not prevent the removal —
`removeItem` still splices the item out, so the collection does not stay
unchanged as the claim asserts. -/
theorem beforeItemRemove_cancel_ignored :
    (match removeItem c2State (.byItem 7) true with
      | .ret _ s1 _ => s1
      | .errThrown s1 _ => s1).items = [] ∧
    c2State.items ≠ [] :=
  ⟨rfl, fun hcon => List.cons_ne_nil _ _ hcon⟩

/-- C2 amended: cancelling `beforeItemAdd` aborts the registration —
`addItem` returns `false` and the state is untouched — but the return value
of the `beforeItemRemove` fire is discarded by `removeItem`, whose outcome
is therefore independent of any cancelling subscriber. -/
theorem beforeAdd_cancellable_beforeRemove_not :
    (∀ (s : AccState) (it : AccordionItem),
      (addItem s it true).1 = s ∧ (addItem s it true).2.1 = false) ∧
    (∀ (s : AccState) (arg : RemoveArg),
      removeItem s arg true = removeItem s arg false) := by
  constructor
  · intro s it
    exact ⟨rfl, rfl⟩
  · intro s arg
    cases arg <;> rfl

/-! ## Adding expanded items one at a time (C3) -/

theorem updateItem_append (l1 l2 : List AccordionItem) (i : Nat)
    (f : AccordionItem → AccordionItem) :
    updateItem (l1 ++ l2) i f = updateItem l1 i f ++ updateItem l2 i f :=
  List.map_append _ _ _

theorem updateItem_fresh {l : List AccordionItem} {i : Nat}
    (f : AccordionItem → AccordionItem) (h : i ∉ l.map (·.id)) :
    updateItem l i f = l := by
  induction l with
  | nil => rfl
  | cons a as ih =>
    have ha : ¬(a.id = i) := by
      intro hcon
      exact h (List.mem_map.mpr ⟨a, List.mem_cons_self a as, hcon⟩)
    have has : i ∉ as.map (·.id) := by
      intro hcon
      rcases List.mem_map.mp hcon with ⟨x, hx, hxi⟩
      exact h (List.mem_map.mpr ⟨x, List.mem_cons_of_mem a hx, hxi⟩)
    show (if a.id = i then f a else a) :: updateItem as i f = a :: as
    rw [if_neg ha, ih has]

/-- C3 amended: with the pending sets quiescent, `addItem` of a fresh item
with `expanded || alwaysVisible` set appends the item (flags forced to
`expanded = true` with its own `alwaysVisible`) and leaves every previously
registered item — its flags included — exactly as it was: `addItem` performs
no collapse-others sweep, so after the k-th `addItem` of an expanded item
all k items are expanded, not just the pinned ones plus item k. -/
theorem addItem_no_sweep (s : AccState) (it : AccordionItem)
    (hfc : s.forCollapsing = []) (hfe : s.forExpanding = [])
    (hfresh : it.id ∉ s.items.map (·.id))
    (he : (it.expanded || it.alwaysVisible) = true) :
    (addItem s it false).1.items =
      s.items ++ [setItemFlags true it.alwaysVisible it] ∧
    (addItem s it false).2.1 = true := by
  refine ⟨?_, rfl⟩
  unfold addItem
  rw [if_neg (Bool.false_ne_true)]
  simp only
  rw [if_pos he]
  rw [processItems_items]
  have hups : flagUpdatesOf
      { { s with items := s.items ++ [it] } with
        forExpanding :=
          addForExpanding ({ s with items := s.items ++ [it] }).forExpanding it.id
            it.alwaysVisible } = [(it.id, true, it.alwaysVisible)] := by
    simp [flagUpdatesOf, hfc, hfe, addForExpanding]
  rw [hups]
  show applyFlagUpdate (s.items ++ [it]) (it.id, true, it.alwaysVisible) =
    s.items ++ [setItemFlags true it.alwaysVisible it]
  rw [applyFlagUpdate_def]
  show updateItem (s.items ++ [it]) it.id (setItemFlags true it.alwaysVisible) = _
  rw [updateItem_append, updateItem_fresh _ hfresh]
  show s.items ++ [if it.id = it.id then setItemFlags true it.alwaysVisible it else it] = _
  rw [if_pos rfl]

/-- The empty accordion with `collapseOthersOnExpand = true`. -/
def c3Start : AccState :=
  { items := [], cfg := { quirks := false, collapseOthersOnExpand := true } }

/-- First expanded, unpinned item added. -/
def c3ItemA : AccordionItem :=
  { id := 1, expanded := true, alwaysVisible := false,
    contentHeight := { method := .fixed, height := 10 } }

/-- Second expanded, unpinned item added. -/
def c3ItemB : AccordionItem :=
  { id := 2, expanded := true, alwaysVisible := false,
    contentHeight := { method := .fixed, height := 10 } }

/-- C3 counterexample: adding two items with `expanded = true` one at a time
under `collapseOthersOnExpand = true` leaves both expanded — after the
second `addItem` the expanded set is not contained in the pinned items plus
item 2, because item 1 (unpinned, not item 2) is still expanded. -/
theorem addItem_twice_keeps_first_expanded :
    ¬ (∀ y ∈ (addItem (addItem c3Start c3ItemA false).1 c3ItemB false).1.items,
        y.expanded = true → (y.alwaysVisible = true ∨ y.id = 2)) := by
  intro hcon
  have hproj :
      (addItem (addItem c3Start c3ItemA false).1 c3ItemB false).1.items.map
        (fun x => (x.id, x.expanded, x.alwaysVisible)) =
      [(1, true, false), (2, true, false)] := rfl
  have hmem : ((1 : Nat), true, false) ∈
      (addItem (addItem c3Start c3ItemA false).1 c3ItemB false).1.items.map
        (fun x => (x.id, x.expanded, x.alwaysVisible)) := by
    rw [hproj]
    exact List.mem_cons_self _ _
  rcases List.mem_map.mp hmem with ⟨y, hy, hyeq⟩
  have hid : y.id = 1 := congrArg Prod.fst hyeq
  have hexp : y.expanded = true := congrArg (fun p => p.2.1) hyeq
  have hav : y.alwaysVisible = false := congrArg (fun p => p.2.2) hyeq
  rcases hcon y hy hexp with h | h
  · rw [hav] at h
    exact Bool.false_ne_true h
  · rw [hid] at h
    exact absurd h (by omega)

/-- Witness for the amended C3 theorem, at the concrete two-item run. -/
theorem addItem_no_sweep_witness :
    (addItem (addItem c3Start c3ItemA false).1 c3ItemB false).1.items =
      (addItem c3Start c3ItemA false).1.items ++
        [setItemFlags true c3ItemB.alwaysVisible c3ItemB] ∧
    (addItem (addItem c3Start c3ItemA false).1 c3ItemB false).2.1 = true :=
  addItem_no_sweep (addItem c3Start c3ItemA false).1 c3ItemB rfl rfl
    (by have hids : (addItem c3Start c3ItemA false).1.items.map (·.id) = [1] := rfl
        rw [hids]
        simp [c3ItemB]) rfl

/-! ## removeItem on an out-of-range numeric index (C8) -/

/-- A two-item accordion for the out-of-range `removeItem` call. -/
def c8State : AccState :=
  { items := [{ id := 0, expanded := true, alwaysVisible := false,
                contentHeight := { method := .auto } },
              { id := 1, expanded := false, alwaysVisible := false,
                contentHeight := { method := .auto } }],
    cfg := { quirks := false, collapseOthersOnExpand := true } }

/-- C8: `removeItem(2)` on a two-item accordion takes the `itemIndex >= 0`
path, fires `beforeItemRemove`, splices nothing (out-of-range `splice`
returns an empty array, so `items.splice(2, 1)[0]` is `undefined`), and then
throws dereferencing `undefined` — instead of returning `null` with the
collection unchanged as the claim (and the method's own return-value
documentation) requires. -/
theorem removeItem_out_of_range_throws :
    removeItem c8State (.byIndex 2) false =
      .errThrown c8State [Ev.beforeItemRemove] := rfl

/-! ## Collapse notifications versus the target height (C6) -/

/-- C6 counterexample: in IE quirks mode the collapsed-height constant is 1;
a synchronous collapse to height 1 fires `beforeItemCollapse` (the
`collapsing` test compares against the constant) but never fires
`itemCollapsed`, because the synchronous completion re-tests the literal
`height === 0` instead — refuting the claimed if-and-only-if in the
synchronous path. -/
theorem collapsed_notification_missing_in_quirks_sync :
    (1 : ℚ) = collapseHeightConst true ∧
    Ev.beforeItemCollapse 0 ∈ processCollapsingEvents true false false 0 1 ∧
    Ev.itemCollapsed 0 ∉ processCollapsingEvents true false false 0 1 := by
  refine ⟨by norm_num [collapseHeightConst], ?_, ?_⟩ <;>
    simp [processCollapsingEvents, collapseHeightConst]

/-- C6 amended: `beforeItemCollapse` fires iff the target height equals the
collapsed-height constant (1 in IE quirks mode, 0 otherwise), in both paths;
`itemCollapsed` fires on completion iff the target height equals the
constant in the animated path, but iff the target height equals the literal
0 in the synchronous path — the two agree except for a synchronous collapse
to the constant 1 in quirks mode. -/
theorem processCollapsing_notifications :
    ∀ (quirks useAnimation skip : Bool) (i : Nat) (h : ℚ),
      (Ev.beforeItemCollapse i ∈ processCollapsingEvents quirks useAnimation skip i h ↔
        h = collapseHeightConst quirks) ∧
      (Ev.itemCollapsed i ∈ processCollapsingEvents quirks useAnimation skip i h ↔
        (if (!skip && useAnimation) = true then h = collapseHeightConst quirks
         else h = 0)) := by
  intro quirks useAnimation skip i h
  by_cases hc : h = collapseHeightConst quirks
  · by_cases hz : h = 0
    · by_cases hanim : (!skip && useAnimation) = true
      · simp [processCollapsingEvents, hc, hz, hanim]
      · simp only [Bool.not_eq_true] at hanim
        simp [processCollapsingEvents, hc, hz, hanim]
    · by_cases hanim : (!skip && useAnimation) = true
      · simp [processCollapsingEvents, hc, hz, hanim]
      · simp only [Bool.not_eq_true] at hanim
        simp [processCollapsingEvents, hc, hz, hanim]
  · by_cases hz : h = 0
    · by_cases hanim : (!skip && useAnimation) = true
      · simp [processCollapsingEvents, hc, hz, hanim]
      · simp only [Bool.not_eq_true] at hanim
        simp [processCollapsingEvents, hc, hz, hanim]
    · by_cases hanim : (!skip && useAnimation) = true
      · simp [processCollapsingEvents, hc, hz, hanim]
      · simp only [Bool.not_eq_true] at hanim
        simp [processCollapsingEvents, hc, hz, hanim]

/-! ## The always-visible icon on an expanded item (C10) -/

/-- C10: choosing the always-visible icon of an expanded item toggles only
that item's pin in place — `expanded` stays `true`, the pin becomes the
negation of the old one, every other item is untouched, the pending sets are
untouched, and the trace holds no collapse, expand or stretch-adjustment
transition (no reconciliation pass runs): it is the single
`_setItemProperties` call. -/
theorem chooseAlwaysVisibleIcon_on_expanded (s : AccState) (i : Nat)
    (item0 : AccordionItem) (hfind : findItem s i = some item0)
    (hexp : item0.expanded = true) :
    (onItemChosen s i true false).2 =
      [Ev.setItemProps i true (!item0.alwaysVisible)] ∧
    (onItemChosen s i true false).1.forCollapsing = s.forCollapsing ∧
    (onItemChosen s i true false).1.forExpanding = s.forExpanding ∧
    (∀ y ∈ (onItemChosen s i true false).1.items, y.id ≠ i → y ∈ s.items) ∧
    (∀ y ∈ (onItemChosen s i true false).1.items, y.id = i →
      y.expanded = true ∧ y.alwaysVisible = !item0.alwaysVisible) := by
  have he : (if (!item0.alwaysVisible) = true then true else item0.expanded) = true := by
    cases item0.alwaysVisible
    · rfl
    · simpa using hexp
  have hgoal : onItemChosen s i true false =
      ({ s with items := updateItem s.items i (setItemFlags true (!item0.alwaysVisible)) },
       [Ev.setItemProps i true (!item0.alwaysVisible)]) := by
    unfold onItemChosen
    rw [hfind]
    simp only [if_neg Bool.false_ne_true, if_pos rfl, if_pos hexp, he]
    exact if_pos trivial
  rw [hgoal]
  refine ⟨rfl, rfl, rfl, ?_, ?_⟩
  · intro y hy hyne
    exact mem_updateItem_of_ne hy (fun x => setItemFlags_id _ _ x) hyne
  · exact updateItem_id_q
      (Q := fun y => y.expanded = true ∧ y.alwaysVisible = !item0.alwaysVisible)
      (fun x => ⟨rfl, rfl⟩) (fun x => setItemFlags_id _ _ x)

/-- A two-item accordion, both expanded, the first one pinned. -/
def c10State : AccState :=
  { items := [{ id := 3, expanded := true, alwaysVisible := true,
                contentHeight := { method := .auto } },
              { id := 4, expanded := true, alwaysVisible := false,
                contentHeight := { method := .auto } }],
    cfg := { quirks := false, collapseOthersOnExpand := true } }

/-- Witness for C10 at a concrete expanded, pinned item. -/
theorem chooseAlwaysVisibleIcon_on_expanded_witness :
    (onItemChosen c10State 3 true false).2 = [Ev.setItemProps 3 true false] ∧
    (onItemChosen c10State 3 true false).1.forCollapsing = c10State.forCollapsing ∧
    (onItemChosen c10State 3 true false).1.forExpanding = c10State.forExpanding ∧
    (∀ y ∈ (onItemChosen c10State 3 true false).1.items, y.id ≠ 3 → y ∈ c10State.items) ∧
    (∀ y ∈ (onItemChosen c10State 3 true false).1.items, y.id = 3 →
      y.expanded = true ∧ y.alwaysVisible = !true) :=
  chooseAlwaysVisibleIcon_on_expanded c10State 3
    { id := 3, expanded := true, alwaysVisible := true,
      contentHeight := { method := .auto } } rfl rfl

/-! ## The reconciliation pass order (C5) -/

/-- The `collapseOthersOnExpand = true` configuration of the A/B scenario. -/
def abConfig : AccConfig := { quirks := false, collapseOthersOnExpand := true }

/-- Scenario item A: expanded, unpinned, fixed height 30, header 10. -/
def abItemA : AccordionItem :=
  { id := 0, expanded := true, alwaysVisible := false,
    contentHeight := { method := .fixed, height := 30 }, headerHeight := 10 }

/-- Scenario item B: collapsed, unpinned, fixed height 40, header 10. -/
def abItemB : AccordionItem :=
  { id := 1, expanded := false, alwaysVisible := false,
    contentHeight := { method := .fixed, height := 40 }, headerHeight := 10 }

/-- The A/B scenario state: A expanded, B collapsed, container height 100. -/
def abState : AccState :=
  { items := [abItemA, abItemB], clientHeight := 100, cfg := abConfig }

/-- C5: a reconciliation pass emits, in order: the batched
`_setItemProperties` flag updates of the pending-collapse set (to
`false, false`) then of the pending-expand set (to `true, carried value`);
then one collapse transition per pending-collapse item; then the stretch
re-adjustment over the whole container; then one expand transition per
pending-expand item, whose height is computed over the *flag-updated* item
collection; and the resulting state holds the flag-updated items with both
pending sets emptied.  In the A/B scenario (`collapseOthersOnExpand = true`,
A expanded, B collapsed, B's header chosen), A ends collapsed and B expanded,
with A's collapse transition emitted before B's expand transition. -/
theorem processItems_order :
    (∀ s : AccState,
      (processItems s).2 =
        (flagUpdatesOf s).map (fun u => Ev.setItemProps u.1 u.2.1 u.2.2) ++
          s.forCollapsing.map
            (fun i => Ev.collapseTo i (collapseHeightConst s.cfg.quirks)) ++
          Ev.adjustStretch ::
            s.forExpanding.map (fun p =>
              Ev.expandTo p.1
                (expandHeightOf s.cfg.quirks s.clientHeight
                  (applyFlagUpdates (flagUpdatesOf s) s.items) p.1)) ∧
      (processItems s).1.items = applyFlagUpdates (flagUpdatesOf s) s.items ∧
      (processItems s).1.forCollapsing = [] ∧
      (processItems s).1.forExpanding = []) ∧
    (onItemChosen abState 1 false false).2 =
      [Ev.setItemProps 0 false false, Ev.setItemProps 1 true false,
       Ev.collapseTo 0 0, Ev.adjustStretch, Ev.expandTo 1 40] ∧
    (onItemChosen abState 1 false false).1.items.map
        (fun x => (x.id, x.expanded, x.alwaysVisible)) =
      [(0, false, false), (1, true, false)] :=
  ⟨fun _ => ⟨rfl, rfl, rfl, rfl⟩, rfl, rfl⟩

/-! ## Pinning a collapsed item externally (C7) -/

theorem mem_addForCollapsing_inv {l : List Nat} {i j : Nat}
    (h : j ∈ addForCollapsing l i) : j ∈ l ∨ j = i := by
  unfold addForCollapsing at h
  split at h
  · exact Or.inl h
  · rcases List.mem_append.mp h with h1 | h1
    · exact Or.inl h1
    · exact Or.inr (List.mem_singleton.mp h1)

theorem storeFold_mono (excl : List Nat) (j : Nat) :
    ∀ (items : List AccordionItem) (fc : List Nat), j ∈ fc →
      j ∈ items.foldl (storeCollapseStep excl) fc := by
  intro items
  induction items with
  | nil => exact fun fc hj => hj
  | cons a as ih =>
    intro fc hj
    refine ih _ ?_
    unfold storeCollapseStep
    split
    · exact mem_addForCollapsing_of_mem _ hj
    · exact hj

theorem storeFold_adds (excl : List Nat) (x : AccordionItem)
    (hcond : (x.expanded && !x.alwaysVisible && !(excl.contains x.id)) = true) :
    ∀ (items : List AccordionItem) (fc : List Nat), x ∈ items →
      x.id ∈ items.foldl (storeCollapseStep excl) fc := by
  intro items
  induction items with
  | nil => exact fun fc hx => absurd hx (List.not_mem_nil x)
  | cons a as ih =>
    intro fc hx
    rcases List.mem_cons.mp hx with rfl | hx'
    · refine storeFold_mono excl x.id as _ ?_
      unfold storeCollapseStep
      rw [if_pos hcond]
      exact mem_addForCollapsing_self _ _
    · exact ih _ hx'

theorem storeFold_inv (excl : List Nat) (j : Nat) :
    ∀ (items : List AccordionItem) (fc : List Nat),
      j ∈ items.foldl (storeCollapseStep excl) fc →
      j ∈ fc ∨ ∃ x ∈ items, x.id = j ∧
        (x.expanded && !x.alwaysVisible && !(excl.contains x.id)) = true := by
  intro items
  induction items with
  | nil => exact fun fc hj => Or.inl hj
  | cons a as ih =>
    intro fc hj
    rcases ih _ hj with h1 | h1
    · unfold storeCollapseStep at h1
      by_cases hca : (a.expanded && !a.alwaysVisible && !(excl.contains a.id)) = true
      · rw [if_pos hca] at h1
        rcases mem_addForCollapsing_inv h1 with h2 | h2
        · exact Or.inl h2
        · exact Or.inr ⟨a, List.mem_cons_self a as, h2.symm, hca⟩
      · rw [if_neg hca] at h1
        exact Or.inl h1
    · rcases h1 with ⟨x, hx, hxj, hxc⟩
      exact Or.inr ⟨x, List.mem_cons_of_mem a hx, hxj, hxc⟩

/-- C7: externally setting `alwaysVisible := true` on a collapsed item (the
pending sets being quiescent) ends with that item expanded and pinned, emits
an expand transition for it, and — for any value of `collapseOthersOnExpand`,
which this handler never consults — every other expanded, unpinned item is
swept: a collapse transition for it appears in the trace and its flags end
as collapsed, unpinned. -/
theorem pinWhileCollapsed_sweeps (s : AccState) (i : Nat)
    (item0 : AccordionItem) (hfind : findItem s i = some item0)
    (hexp : item0.expanded = false)
    (hfc : s.forCollapsing = []) (hfe : s.forExpanding = []) :
    (∀ y ∈ (setAlwaysVisibleExternal s i true).1.items, y.id = i →
      y.expanded = true ∧ y.alwaysVisible = true) ∧
    (∃ h : ℚ, Ev.expandTo i h ∈ (setAlwaysVisibleExternal s i true).2) ∧
    (∀ x ∈ s.items, x.id ≠ i → x.expanded = true → x.alwaysVisible = false →
      Ev.collapseTo x.id (collapseHeightConst s.cfg.quirks) ∈
        (setAlwaysVisibleExternal s i true).2 ∧
      (∀ y ∈ (setAlwaysVisibleExternal s i true).1.items, y.id = x.id →
        y.expanded = false ∧ y.alwaysVisible = false)) := by
  have hgoal : setAlwaysVisibleExternal s i true =
      processItems
        (storeItemsForCollapsing
          { { s with items := updateItem s.items i (fun x => { x with alwaysVisible := true }) } with
            forExpanding :=
              addForExpanding
                ({ s with items := updateItem s.items i (fun x => { x with alwaysVisible := true }) }).forExpanding
                i true }
          []) := by
    have hexpne : ¬(item0.expanded = true) := by
      rw [hexp]
      exact Bool.false_ne_true
    unfold setAlwaysVisibleExternal
    rw [hfind]
    simp only [eq_self_iff_true, if_true, if_neg hexpne]
  set s0items := updateItem s.items i (fun x => { x with alwaysVisible := true }) with hs0items
  have hfold :
      (storeItemsForCollapsing
        { { s with items := s0items } with
          forExpanding :=
            addForExpanding ({ s with items := s0items }).forExpanding i true }
        []).forCollapsing = s0items.foldl (storeCollapseStep []) [] := by
    show s0items.foldl (storeCollapseStep []) s.forCollapsing = _
    rw [hfc]
  have hups : flagUpdatesOf
      (storeItemsForCollapsing
        { { s with items := s0items } with
          forExpanding :=
            addForExpanding ({ s with items := s0items }).forExpanding i true }
        []) =
      (s0items.foldl (storeCollapseStep []) []).map (fun j => (j, false, false)) ++
        [(i, true, true)] := by
    unfold flagUpdatesOf
    rw [hfold]
    have hexpd :
        (storeItemsForCollapsing
          { { s with items := s0items } with
            forExpanding :=
              addForExpanding ({ s with items := s0items }).forExpanding i true }
          []).forExpanding = [(i, true)] := by
      show addForExpanding s.forExpanding i true = [(i, true)]
      rw [hfe]
      rfl
    rw [hexpd]
    rfl
  have hs0av : ∀ y ∈ s0items, y.id = i → y.alwaysVisible = true :=
    updateItem_id_q (Q := fun y => y.alwaysVisible = true)
      (fun x => rfl) (fun x => rfl)
  have hnotin : i ∉ s0items.foldl (storeCollapseStep []) [] := by
    intro hcon
    rcases storeFold_inv [] i s0items [] hcon with h1 | h1
    · exact absurd h1 (List.not_mem_nil i)
    · rcases h1 with ⟨x, hx, hxi, hxc⟩
      have hav : x.alwaysVisible = true := hs0av x hx hxi
      rw [hav] at hxc
      simp at hxc
  have hq2 : ∀ u ∈ (s0items.foldl (storeCollapseStep []) []).map
        (fun j => (j, false, false)) ++ [((i : Nat), true, true)],
      u.1 = i → ∀ x, (setItemFlags u.2.1 u.2.2 x).expanded = true ∧
        (setItemFlags u.2.1 u.2.2 x).alwaysVisible = true := by
    intro u hu hui x
    rcases List.mem_append.mp hu with h1 | h1
    · exfalso
      rcases List.mem_map.mp h1 with ⟨j, hj, rfl⟩
      exact hnotin (hui ▸ hj)
    · rcases List.mem_singleton.mp h1 with rfl
      exact ⟨rfl, rfl⟩
  refine ⟨?_, ?_, ?_⟩
  · intro y hy hyi
    rw [hgoal, processItems_items, hups] at hy
    exact applyFlagUpdates_id_q
      (Q := fun y => y.expanded = true ∧ y.alwaysVisible = true)
      _ _ i hq2
      (Or.inl (by rw [List.map_append]; exact List.mem_append_right _ (by simp)))
      y hy hyi
  · refine ⟨expandHeightOf s.cfg.quirks s.clientHeight
      (applyFlagUpdates
        (flagUpdatesOf
          (storeItemsForCollapsing
            { { s with items := s0items } with
              forExpanding :=
                addForExpanding ({ s with items := s0items }).forExpanding i true }
            []))
        s0items) i, ?_⟩
    rw [hgoal, processItems_trace]
    refine List.mem_append_right _ ?_
    refine List.mem_cons_of_mem _ ?_
    have hexpd :
        (storeItemsForCollapsing
          { { s with items := s0items } with
            forExpanding :=
              addForExpanding ({ s with items := s0items }).forExpanding i true }
          []).forExpanding = [(i, true)] := by
      show addForExpanding s.forExpanding i true = [(i, true)]
      rw [hfe]
      rfl
    rw [hexpd]
    exact List.mem_singleton.mpr rfl
  · intro x hx hxne hxexp hxav
    have hx0 : x ∈ s0items := by
      rw [hs0items]
      exact List.mem_map.mpr ⟨x, hx, by rw [if_neg (fun hcon => hxne hcon)]⟩
    have hcond : (x.expanded && !x.alwaysVisible &&
        !(([] : List Nat).contains x.id)) = true := by
      rw [hxexp, hxav]
      rfl
    have hcol : x.id ∈ s0items.foldl (storeCollapseStep []) [] :=
      storeFold_adds [] x hcond s0items [] hx0
    constructor
    · rw [hgoal, processItems_trace]
      refine List.mem_append_left _ (List.mem_append_right _ ?_)
      rw [hfold]
      exact List.mem_map.mpr ⟨x.id, hcol, rfl⟩
    · intro y hy hyx
      rw [hgoal, processItems_items, hups] at hy
      refine applyFlagUpdates_id_q
        (Q := fun y => y.expanded = false ∧ y.alwaysVisible = false)
        _ _ x.id ?_ (Or.inl ?_) y hy hyx
      · intro u hu hux z
        rcases List.mem_append.mp hu with h1 | h1
        · rcases List.mem_map.mp h1 with ⟨j, hj, rfl⟩
          exact ⟨rfl, rfl⟩
        · exfalso
          rcases List.mem_singleton.mp h1 with rfl
          exact hxne (Eq.symm (hux : i = x.id))
      · rw [List.map_append]
        refine List.mem_append_left _ ?_
        refine List.mem_map.mpr ⟨(x.id, false, false), ?_, rfl⟩
        exact List.mem_map.mpr ⟨x.id, hcol, rfl⟩

/-- A two-item accordion with `collapseOthersOnExpand = false`: item 5 is
collapsed, item 6 expanded and unpinned. -/
def c7State : AccState :=
  { items := [{ id := 5, expanded := false, alwaysVisible := false,
                contentHeight := { method := .fixed, height := 25 } },
              { id := 6, expanded := true, alwaysVisible := false,
                contentHeight := { method := .fixed, height := 35 } }],
    cfg := { quirks := false, collapseOthersOnExpand := false } }

/-- Witness for C7: pinning collapsed item 5 sweeps expanded item 6 even
though `collapseOthersOnExpand` is `false`. -/
theorem pinWhileCollapsed_sweeps_witness :
    (∀ y ∈ (setAlwaysVisibleExternal c7State 5 true).1.items, y.id = 5 →
      y.expanded = true ∧ y.alwaysVisible = true) ∧
    (∃ h : ℚ, Ev.expandTo 5 h ∈ (setAlwaysVisibleExternal c7State 5 true).2) ∧
    (∀ x ∈ c7State.items, x.id ≠ 5 → x.expanded = true → x.alwaysVisible = false →
      Ev.collapseTo x.id (collapseHeightConst c7State.cfg.quirks) ∈
        (setAlwaysVisibleExternal c7State 5 true).2 ∧
      (∀ y ∈ (setAlwaysVisibleExternal c7State 5 true).1.items, y.id = x.id →
        y.expanded = false ∧ y.alwaysVisible = false)) :=
  pinWhileCollapsed_sweeps c7State 5
    { id := 5, expanded := false, alwaysVisible := false,
      contentHeight := { method := .fixed, height := 25 } }
    rfl rfl rfl rfl

/-! ## The reorder round trip (C9) -/

theorem spliceInsert_zero (l : List α) (x : α) : spliceInsert l 0 x = x :: l := rfl

theorem spliceInsert_cons (a : α) (l : List α) (n : Nat) (x : α) :
    spliceInsert (a :: l) (n + 1) x = a :: spliceInsert l n x := rfl

theorem spliceRemove_zero (a : α) (l : List α) : spliceRemove (a :: l) 0 = l := rfl

theorem spliceRemove_cons (a : α) (l : List α) (n : Nat) :
    spliceRemove (a :: l) (n + 1) = a :: spliceRemove l n := rfl

theorem spliceInsert_append (A B : List α) (n : Nat) (x : α) :
    spliceInsert (A ++ B) (A.length + n) x = A ++ spliceInsert B n x := by
  induction A with
  | nil =>
    rw [List.length_nil, Nat.zero_add]
    rfl
  | cons a as ih =>
    have harith : (a :: as).length + n = (as.length + n) + 1 := by
      simp only [List.length_cons]
      omega
    rw [harith]
    show spliceInsert (a :: (as ++ B)) ((as.length + n) + 1) x =
      a :: (as ++ spliceInsert B n x)
    rw [spliceInsert_cons, ih]

theorem spliceRemove_append (A B : List α) (n : Nat) :
    spliceRemove (A ++ B) (A.length + n) = A ++ spliceRemove B n := by
  induction A with
  | nil =>
    rw [List.length_nil, Nat.zero_add]
    rfl
  | cons a as ih =>
    have harith : (a :: as).length + n = (as.length + n) + 1 := by
      simp only [List.length_cons]
      omega
    rw [harith]
    show spliceRemove (a :: (as ++ B)) ((as.length + n) + 1) =
      a :: (as ++ spliceRemove B n)
    rw [spliceRemove_cons, ih]

theorem get?_append_plus (A B : List α) (n : Nat) :
    (A ++ B).get? (A.length + n) = B.get? n := by
  induction A with
  | nil =>
    rw [List.length_nil, Nat.zero_add]
    rfl
  | cons a as ih =>
    have harith : (a :: as).length + n = (as.length + n) + 1 := by
      simp only [List.length_cons]
      omega
    rw [harith]
    show (as ++ B).get? (as.length + n) = B.get? n
    exact ih

theorem exists_splice_decomp (l : List α) (i : Nat) (h : i < l.length) :
    ∃ A z B, l = A ++ z :: B ∧ A.length = i := by
  induction l generalizing i with
  | nil => simp at h
  | cons a as ih =>
    cases i with
    | zero => exact ⟨[], a, as, rfl, rfl⟩
    | succ n =>
      have hn : n < as.length := by
        simp only [List.length_cons] at h
        omega
      rcases ih n hn with ⟨A, z, B, hdec, hlen⟩
      exact ⟨a :: A, z, B, by rw [hdec]; rfl, by simp [hlen]⟩

/-- C9: moving the item at position `i` onto the target at position `j`
(`i < j`, a downward move: insert after target, then remove the original)
and then moving it — now at position `j` — back onto the target at position
`i` (an upward move: remove, then insert before target) restores the
original order of the collection. -/
theorem ddReorder_roundtrip (l : List α) (i j : Nat)
    (hij : i < j) (hj : j < l.length) :
    ddReorder (ddReorder l i j) j i = l := by
  rcases exists_splice_decomp l i (lt_trans hij hj) with ⟨A, z, B, rfl, hA⟩
  have hB : j - i - 1 < B.length := by
    rw [List.length_append, List.length_cons] at hj
    omega
  rcases exists_splice_decomp B (j - i - 1) hB with ⟨C, w, D, rfl, hC⟩
  have hCl : C.length = j - i - 1 := hC
  have hne : ¬(j = i) := (ne_of_gt hij)
  have hne2 : ¬(i = j) := (ne_of_lt hij)
  have hz : (A ++ z :: (C ++ w :: D)).get? i = some z := by
    rw [show i = A.length + 0 from by omega]
    rw [get?_append_plus]
    rfl
  have h1 : ddReorder (A ++ z :: (C ++ w :: D)) i j = A ++ (C ++ w :: z :: D) := by
    unfold ddReorder
    rw [if_neg hne]
    split
    · rename_i heq
      rw [hz] at heq
      cases heq
    · rename_i item heq
      rw [hz] at heq
      injection heq with hinj
      subst hinj
      rw [if_neg (not_lt.mpr hij.le)]
      have e1 : j + 1 = A.length + (C.length + 1 + 1) := by omega
      rw [e1, spliceInsert_append, spliceInsert_cons, spliceInsert_append,
        spliceInsert_cons, spliceInsert_zero]
      rw [show i = A.length + 0 from by omega, spliceRemove_append]
      rfl
  have h2 : ddReorder (A ++ (C ++ w :: z :: D)) j i = A ++ z :: (C ++ w :: D) := by
    unfold ddReorder
    rw [if_neg hne2]
    have hassoc : A ++ (C ++ w :: z :: D) = (A ++ C) ++ (w :: z :: D) :=
      (List.append_assoc A C (w :: z :: D)).symm
    have hz2 : (A ++ (C ++ w :: z :: D)).get? j = some z := by
      rw [hassoc]
      rw [show j = (A ++ C).length + 1 from by rw [List.length_append]; omega]
      rw [get?_append_plus]
      rfl
    split
    · rename_i heq
      rw [hz2] at heq
      cases heq
    · rename_i item heq
      rw [hz2] at heq
      injection heq with hinj
      subst hinj
      rw [if_pos hij]
      rw [hassoc]
      rw [show j = (A ++ C).length + 1 from by rw [List.length_append]; omega]
      rw [spliceRemove_append, spliceRemove_cons, spliceRemove_zero]
      rw [List.append_assoc]
      rw [show i = A.length + 0 from by omega, spliceInsert_append, spliceInsert_zero]
  rw [h1, h2]

/-- Witness for C9: a concrete three-element round trip. -/
theorem ddReorder_roundtrip_witness :
    ddReorder (ddReorder [10, 20, 30] 0 2) 2 0 = [10, 20, 30] :=
  ddReorder_roundtrip [10, 20, 30] 0 2 (by decide) (by decide)

end YuiAccordion
